import Mathlib

/-!
Verification of the breakpoint-tracking logic of `src/src/codeeditor.cpp`
(the `CodeEditor` widget of the Ripes repository).

The breakpoint store `m_breakpoints` is a `std::set<int>`; it is modelled as
a `Finset ℤ`.  The document is abstracted by its block (line) count, an
integer supplied by the surrounding toolkit.  All arithmetic in the source
is C++ `int` arithmetic on small quantities (line numbers, pixel
coordinates), far from any overflow boundary, so it is modelled by ℤ;
the one division in `breakpointClick` is a C++ division truncating toward
zero, modelled by `Int.tdiv`.
-/

namespace CodeEditor

/-- The tail-removal loop of `CodeEditor::updateSidebar`
(codeeditor.cpp lines 101-105): while the set is nonempty and its maximum
element (`*m_breakpoints.rbegin()`) exceeds `blockCount() - 1`, erase the
maximum (`std::prev(m_breakpoints.end())`).  The spec calls this operation
`reconcile(newLineCount)`. -/
def reconcile (S : Finset ℤ) (blockCount : ℤ) : Finset ℤ :=
  if h : S.Nonempty then
    if S.max' h > blockCount - 1 then
      reconcile (S.erase (S.max' h)) blockCount
    else S
  else S
termination_by S.card
decreasing_by exact Finset.card_erase_lt_of_mem (S.max'_mem h)

/-- Modelled from the spec: the one-pass formulation of reconciliation,
"removes every breakpoint whose index is `>= newLineCount`", i.e. keep
exactly the elements `< newLineCount`.  (The repository's own code only
contains the repeated-max-extraction loop; this definition follows the
spec's words and is compared against `reconcile` in claim C3.) -/
def reconcileSpec (S : Finset ℤ) (newLineCount : ℤ) : Finset ℤ :=
  S.filter (fun x => x < newLineCount)

/-- The breakpoint mutation at codeeditor.cpp lines 216-230: branch on
`forceState` (1 = force add, 2 = force remove, anything else = toggle),
written exactly as the source's `find`/`insert`/`erase` sequence. -/
def applyForceState (S : Finset ℤ) (blockNumber : ℤ) (forceState : ℤ) : Finset ℤ :=
  if forceState = 1 then
    insert blockNumber S
  else if forceState = 2 then
    if blockNumber ∈ S then S.erase blockNumber else S
  else
    if blockNumber ∈ S then S.erase blockNumber else insert blockNumber S

/-- `toggle(x)`: `breakpointClick` mutation with `forceState = 0`
(codeeditor.cpp lines 224-229). -/
def toggle (S : Finset ℤ) (x : ℤ) : Finset ℤ :=
  applyForceState S x 0

/-- `forceAdd(x)`: `breakpointClick` mutation with `forceState = 1`
(codeeditor.cpp lines 219-220). -/
def forceAdd (S : Finset ℤ) (x : ℤ) : Finset ℤ :=
  applyForceState S x 1

/-- `forceRemove(x)`: `breakpointClick` mutation with `forceState = 2`
(codeeditor.cpp lines 221-223). -/
def forceRemove (S : Finset ℤ) (x : ℤ) : Finset ℤ :=
  applyForceState S x 2

/-- `contains(x)`: the membership query `m_breakpoints.find(x) != m_breakpoints.end()`
used by the renderer (line 182) and by `breakpointClick` (line 217). -/
def contains (S : Finset ℤ) (x : ℤ) : Bool :=
  decide (x ∈ S)

/-- Modelled from the spec: `clear()` "empties the set".  The body of
`CodeEditor::clearBreakpoints` is not in the provided source (only its call
site at codeeditor.cpp line 251); the spec says it empties the set. -/
def clearBreakpoints (_S : Finset ℤ) : Finset ℤ :=
  (∅ : Finset ℤ)

/-- `QTextBlock::next()` on the abstract document: a valid block with number
`n` steps to block `n + 1` when that is still a valid block number
(at most `blockCount - 1`), and to an invalid block otherwise; `next` of an
invalid block stays invalid. -/
def nextBlock (blockCount : ℤ) : Option ℤ → Option ℤ
  | none => none
  | some n => if n + 1 ≤ blockCount - 1 then some (n + 1) else none

/-- The walk loop of `breakpointClick` (codeeditor.cpp lines 210-213),
`while (index > 0) { block = block.next(); index--; }`, unrolled on the
number of iterations: with an `int` index the loop body runs
`max index 0` times. -/
def walkN (blockCount : ℤ) (b : Option ℤ) : Nat → Option ℤ
  | 0 => b
  | n + 1 => walkN blockCount (nextBlock blockCount b) n

/-- The walk loop with its C++ `int` counter: run the body `index.toNat`
(that is, `max index 0`) times. -/
def walk (blockCount : ℤ) (b : Option ℤ) (index : ℤ) : Option ℤ :=
  walkN blockCount b index.toNat

/-- The index computation of `breakpointClick` (codeeditor.cpp lines
203-208): the content offset is subtracted from the click's y coordinate
when the first visible block is the document's block 0, and added
otherwise; the quotient is truncated toward zero exactly as the C++
`int index = ... / height` conversion does. -/
def computedIndex (firstVisibleLine posY offY height : ℤ) : ℤ :=
  if firstVisibleLine = 0 then
    Int.tdiv (posY - offY) height
  else
    Int.tdiv (posY + offY) height

/-- The block that `breakpointClick` walks to: start at the first visible
block and advance `computedIndex` times; `none` models an invalid block. -/
def resolvedBlock (blockCount firstVisibleLine posY offY height : ℤ) : Option ℤ :=
  walk blockCount (some firstVisibleLine) (computedIndex firstVisibleLine posY offY height)

/-- `CodeEditor::breakpointClick` (codeeditor.cpp lines 196-233) as a
function of the click geometry: returns the new breakpoint set together
with a flag recording whether `repaint()` was called.  The mutation and the
repaint happen only under the `block.isValid()` guard (line 216). -/
def breakpointClick (S : Finset ℤ) (blockCount firstVisibleLine posY offY height forceState : ℤ) :
    Finset ℤ × Bool :=
  match resolvedBlock blockCount firstVisibleLine posY offY height with
  | some blockNumber => (applyForceState S blockNumber forceState, true)
  | none => (S, false)

/-- One visible block as seen by `breakpointAreaPaintEvent`: its number,
its visibility, and its top/bottom pixel coordinates. -/
structure PaintBlock where
  number : ℤ
  visible : Bool
  top : ℤ
  bottom : ℤ

/-- The painting loop of `CodeEditor::breakpointAreaPaintEvent`
(codeeditor.cpp lines 180-193): walk the blocks while the running top stays
at most the event rectangle's bottom; for each visible block overlapping the
event rectangle whose number is in the breakpoint set, draw a marker.  The
function returns the breakpoint set as the loop leaves it together with the
list of block numbers that got a marker; the loop body only queries
`m_breakpoints.find`, it never inserts or erases. -/
def paintLoop (S : Finset ℤ) (evTop evBottom : ℤ) : List PaintBlock → Finset ℤ × List ℤ
  | [] => (S, [])
  | b :: rest =>
    if b.top ≤ evBottom then
      ((paintLoop S evTop evBottom rest).1,
        (if b.visible && decide (evTop ≤ b.bottom) && contains S b.number then
            [b.number]
          else
            []) ++ (paintLoop S evTop evBottom rest).2)
    else
      (S, [])

/-- The data-model invariant of the spec: every element of the breakpoint
set is a valid line index in `[0, lineCount - 1]`. -/
def InvariantHolds (S : Finset ℤ) (lineCount : ℤ) : Prop :=
  ∀ x ∈ S, 0 ≤ x ∧ x ≤ lineCount - 1

/-- The reconciliation loop computes the one-pass filter: repeatedly
erasing the maximum while it exceeds `blockCount - 1` keeps exactly the
elements `< blockCount`. -/
theorem reconcile_eq_filter (S : Finset ℤ) (N : ℤ) :
    reconcile S N = S.filter (fun x => x < N) := by
  induction S using Finset.strongInductionOn with
  | _ S ih =>
    rw [reconcile]
    by_cases h : S.Nonempty
    · simp only [dif_pos h]
      by_cases hmax : S.max' h > N - 1
      · rw [if_pos hmax, ih (S.erase (S.max' h)) (Finset.erase_ssubset (S.max'_mem h)),
          Finset.filter_erase]
        apply Finset.erase_eq_of_not_mem
        intro hmem
        have := (Finset.mem_filter.mp hmem).2
        omega
      · rw [if_neg hmax]
        symm
        apply Finset.filter_true_of_mem
        intro x hx
        have := Finset.le_max' S x hx
        have : S.max' h ≤ N - 1 := by omega
        omega
    · simp only [dif_neg h]
      rw [Finset.not_nonempty_iff_eq_empty] at h
      subst h
      simp

/-- Unfolding of the `forceState = 0` branch: toggle erases a present
element and inserts an absent one. -/
theorem toggle_def (S : Finset ℤ) (x : ℤ) :
    toggle S x = if x ∈ S then S.erase x else insert x S := by
  simp only [toggle, applyForceState]
  norm_num

/-- Unfolding of the `forceState = 1` branch: `std::set::insert`. -/
theorem forceAdd_def (S : Finset ℤ) (x : ℤ) : forceAdd S x = insert x S := by
  simp only [forceAdd, applyForceState]
  norm_num

/-- Unfolding of the `forceState = 2` branch: erase when present, else
leave the set alone. -/
theorem forceRemove_def (S : Finset ℤ) (x : ℤ) :
    forceRemove S x = if x ∈ S then S.erase x else S := by
  simp only [forceRemove, applyForceState]
  norm_num

/-- Walking the block chain from a valid block: as long as the target stays
at most `blockCount - 1`, each `next` step lands on a valid block, so `n`
steps from block `s` reach block `s + n`. -/
theorem walkN_valid (bc : ℤ) (n : Nat) :
    ∀ s : ℤ, s + n ≤ bc - 1 → walkN bc (some s) n = some (s + n) := by
  induction n with
  | zero =>
    intro s _
    simp [walkN]
  | succ n ih =>
    intro s h
    have h1 : s + 1 ≤ bc - 1 := by omega
    have h2 : (s + 1) + (n : ℤ) ≤ bc - 1 := by push_cast at h ⊢; omega
    rw [walkN, nextBlock, if_pos h1, ih (s + 1) h2]
    congr 1
    push_cast
    ring

/-- C1: after `reconcile(N)` every remaining element is strictly below `N`,
every element that was already below `N` survives, and the scenario
`S = {2, 5, 9}`, `N = 6` yields `{2, 5}`. -/
theorem reconcile_removes_tail (S : Finset ℤ) (N : ℤ) :
    (∀ x ∈ reconcile S N, x < N) ∧
    (∀ x ∈ S, x < N → x ∈ reconcile S N) ∧
    reconcile ({2, 5, 9} : Finset ℤ) 6 = ({2, 5} : Finset ℤ) := by
  refine ⟨?_, ?_, ?_⟩
  · intro x hx
    rw [reconcile_eq_filter] at hx
    exact (Finset.mem_filter.mp hx).2
  · intro x hx hlt
    rw [reconcile_eq_filter]
    exact Finset.mem_filter.mpr ⟨hx, hlt⟩
  · rw [reconcile_eq_filter]
    decide

/-- Witness for C1 at the scenario input. -/
theorem reconcile_removes_tail_witness :
    (2 : ℤ) ∈ reconcile ({2, 5, 9} : Finset ℤ) 6 ∧
    reconcile ({2, 5, 9} : Finset ℤ) 6 = ({2, 5} : Finset ℤ) :=
  ⟨(reconcile_removes_tail {2, 5, 9} 6).2.1 2 (by decide) (by decide),
   (reconcile_removes_tail {2, 5, 9} 6).2.2⟩

/-- C2: when the computed count is nonnegative and the target block exists,
`breakpointClick` resolves the click to `firstVisibleLine + count`, where
the count divides the adjusted offset by the line height, subtracting the
viewport offset when the first visible line is line 0 and adding it
otherwise; the two concrete scenarios resolve to lines 2 and 12. -/
theorem click_line_mapping (bc fvl posY offY height : ℤ)
    (hidx : 0 ≤ computedIndex fvl posY offY height)
    (hrange : fvl + computedIndex fvl posY offY height ≤ bc - 1) :
    resolvedBlock bc fvl posY offY height =
      some (fvl + (if fvl = 0 then Int.tdiv (posY - offY) height
        else Int.tdiv (posY + offY) height)) ∧
    resolvedBlock 20 0 47 5 20 = some 2 ∧
    resolvedBlock 20 10 34 4 15 = some 12 := by
  refine ⟨?_, by decide, by decide⟩
  have htn : ((computedIndex fvl posY offY height).toNat : ℤ) =
      computedIndex fvl posY offY height := Int.toNat_of_nonneg hidx
  rw [resolvedBlock, walk, walkN_valid bc _ fvl (by rw [htn]; exact hrange), htn]
  rfl

/-- Witness for C2 at the two scenario inputs. -/
theorem click_line_mapping_witness :
    resolvedBlock 20 0 47 5 20 = some 2 ∧ resolvedBlock 20 10 34 4 15 = some 12 :=
  (click_line_mapping 20 0 47 5 20 (by decide) (by decide)).2

/-- C3: the source's repeated-max-extraction loop computes exactly the
spec's one-pass filter keeping the elements `< newLineCount`. -/
theorem reconcile_refines_spec (S : Finset ℤ) (N : ℤ) :
    reconcile S N = reconcileSpec S N := by
  rw [reconcile_eq_filter]
  rfl

/-- C4: toggling the same line twice restores the original set, and from
the empty set `toggle 3` gives `{3}` and a second `toggle 3` gives `{}`. -/
theorem toggle_involution (S : Finset ℤ) (x : ℤ) :
    toggle (toggle S x) x = S ∧
    toggle (∅ : Finset ℤ) 3 = ({3} : Finset ℤ) ∧
    toggle ({3} : Finset ℤ) 3 = (∅ : Finset ℤ) := by
  refine ⟨?_, by decide, by decide⟩
  by_cases h : x ∈ S
  · have h1 : toggle S x = S.erase x := by rw [toggle_def, if_pos h]
    rw [h1, toggle_def, if_neg (Finset.not_mem_erase x S), Finset.insert_erase h]
  · have h1 : toggle S x = insert x S := by rw [toggle_def, if_neg h]
    rw [h1, toggle_def, if_pos (Finset.mem_insert_self x S), Finset.erase_insert h]

/-- C5: after `forceAdd x` the set contains `x`, after `forceRemove x` it
does not, and both operations are idempotent. -/
theorem force_semantics (S : Finset ℤ) (x : ℤ) :
    contains (forceAdd S x) x = true ∧
    contains (forceRemove S x) x = false ∧
    forceAdd (forceAdd S x) x = forceAdd S x ∧
    forceRemove (forceRemove S x) x = forceRemove S x := by
  refine ⟨?_, ?_, ?_, ?_⟩
  · simp [contains, forceAdd_def]
  · by_cases h : x ∈ S
    · simp [contains, forceRemove_def, h, Finset.not_mem_erase]
    · simp [contains, forceRemove_def, h]
  · simp [forceAdd_def, Finset.insert_idem]
  · by_cases h : x ∈ S
    · have h1 : forceRemove S x = S.erase x := by rw [forceRemove_def, if_pos h]
      rw [h1, forceRemove_def, if_neg (Finset.not_mem_erase x S)]
    · have h1 : forceRemove S x = S := by rw [forceRemove_def, if_neg h]
      rw [h1, h1]

/-- C6: when every element is already strictly below the new line count,
reconciliation changes nothing. -/
theorem reconcile_noop (S : Finset ℤ) (N : ℤ) (h : ∀ x ∈ S, x < N) :
    reconcile S N = S := by
  rw [reconcile_eq_filter]
  exact Finset.filter_true_of_mem h

/-- Witness for C6 on a concrete in-range set. -/
theorem reconcile_noop_witness :
    (∀ x ∈ ({1, 2} : Finset ℤ), x < 5) ∧ reconcile ({1, 2} : Finset ℤ) 5 = ({1, 2} : Finset ℤ) :=
  ⟨by decide, reconcile_noop {1, 2} 5 (by decide)⟩

/-- C7: the valid-index invariant is established by reconciliation (given
that the set holds only nonnegative indices, as it always does since block
numbers are nonnegative) and is preserved by toggle, forceAdd, forceRemove
and clear when callers pass currently-valid line indices to the mutating
operations. -/
theorem invariant_preserved :
    (∀ (S : Finset ℤ) (N : ℤ), (∀ x ∈ S, 0 ≤ x) → InvariantHolds (reconcile S N) N) ∧
    (∀ (S : Finset ℤ) (L x : ℤ), InvariantHolds S L → 0 ≤ x → x ≤ L - 1 →
      InvariantHolds (toggle S x) L) ∧
    (∀ (S : Finset ℤ) (L x : ℤ), InvariantHolds S L → 0 ≤ x → x ≤ L - 1 →
      InvariantHolds (forceAdd S x) L) ∧
    (∀ (S : Finset ℤ) (L x : ℤ), InvariantHolds S L → InvariantHolds (forceRemove S x) L) ∧
    (∀ (S : Finset ℤ) (L : ℤ), InvariantHolds (clearBreakpoints S) L) := by
  refine ⟨?_, ?_, ?_, ?_, ?_⟩
  · intro S N hpos x hx
    rw [reconcile_eq_filter] at hx
    obtain ⟨hxS, hlt⟩ := Finset.mem_filter.mp hx
    exact ⟨hpos x hxS, by omega⟩
  · intro S L x hInv h0 h1 y hy
    rw [toggle_def] at hy
    by_cases h : x ∈ S
    · rw [if_pos h] at hy
      exact hInv y (Finset.mem_of_mem_erase hy)
    · rw [if_neg h] at hy
      rcases Finset.mem_insert.mp hy with rfl | hy
      · exact ⟨h0, h1⟩
      · exact hInv y hy
  · intro S L x hInv h0 h1 y hy
    rw [forceAdd_def] at hy
    rcases Finset.mem_insert.mp hy with rfl | hy
    · exact ⟨h0, h1⟩
    · exact hInv y hy
  · intro S L x hInv y hy
    rw [forceRemove_def] at hy
    by_cases h : x ∈ S
    · rw [if_pos h] at hy
      exact hInv y (Finset.mem_of_mem_erase hy)
    · rw [if_neg h] at hy
      exact hInv y hy
  · intro S L y hy
    simp [clearBreakpoints] at hy

/-- Witness for C7: reconciling a set with an out-of-range element
establishes the invariant at the new line count. -/
theorem invariant_preserved_witness :
    InvariantHolds (reconcile ({0, 7} : Finset ℤ) 3) 3 :=
  invariant_preserved.1 {0, 7} 3 (by decide)

/-- C8: all operations are total functions of their integer arguments (they
are Lean functions, defined on every input), and an out-of-range line index
is treated as an ordinary integer: under the validity invariant it is not a
member, so `contains` answers false and `toggle` simply inserts it. -/
theorem total_out_of_range (S : Finset ℤ) (L x : ℤ) (hInv : InvariantHolds S L)
    (hx : x < 0 ∨ L - 1 < x) :
    contains S x = false ∧ toggle S x = insert x S := by
  have hxS : x ∉ S := fun hmem => by
    have := hInv x hmem
    omega
  refine ⟨by simp [contains, hxS], ?_⟩
  rw [toggle_def, if_neg hxS]

/-- Witness for C8: line 5 is out of range for a two-line document. -/
theorem total_out_of_range_witness :
    contains ({0, 1} : Finset ℤ) 5 = false ∧
    toggle ({0, 1} : Finset ℤ) 5 = insert 5 ({0, 1} : Finset ℤ) :=
  total_out_of_range {0, 1} 2 5
    (by intro x hx; fin_cases hx <;> simp)
    (by decide)

/-- C9: the painting loop never mutates the breakpoint set — the set
component of its result is the input set — and it draws markers only on
lines the (pure) membership query answers true for. -/
theorem paint_is_pure (S : Finset ℤ) (evTop evBottom : ℤ) (blocks : List PaintBlock) :
    (paintLoop S evTop evBottom blocks).1 = S ∧
    ∀ n ∈ (paintLoop S evTop evBottom blocks).2, contains S n = true := by
  induction blocks with
  | nil => exact ⟨rfl, by intro n hn; simp [paintLoop] at hn⟩
  | cons b rest ih =>
    by_cases hb : b.top ≤ evBottom
    · rw [paintLoop, if_pos hb]
      refine ⟨ih.1, ?_⟩
      intro n hn
      rcases List.mem_append.mp hn with hn | hn
      · by_cases hd : b.visible && decide (evTop ≤ b.bottom) && contains S b.number
        · rw [if_pos hd] at hn
          rcases List.mem_singleton.mp hn with rfl
          exact (Bool.and_eq_true _ _ |>.mp hd).2
        · rw [if_neg hd] at hn
          simp at hn
      · exact ih.2 n hn
    · rw [paintLoop, if_neg hb]
      exact ⟨rfl, by intro n hn; simp at hn⟩

/-- C10: when the walked-to block is invalid (the computed target lies past
the last line), `breakpointClick` leaves the set unchanged and does not
repaint, in every mode. -/
theorem click_invalid_block_noop (S : Finset ℤ) (bc fvl posY offY height fs : ℤ)
    (h : resolvedBlock bc fvl posY offY height = none) :
    breakpointClick S bc fvl posY offY height fs = (S, false) := by
  simp only [breakpointClick, h]

/-- Witness for C10: a click resolving to line 10 of a three-line document
changes nothing in toggle mode. -/
theorem click_invalid_block_noop_witness :
    breakpointClick ({1} : Finset ℤ) 3 0 100 0 10 0 = (({1} : Finset ℤ), false) :=
  click_invalid_block_noop {1} 3 0 100 0 10 0 (by decide)
